import Mathlib

/-!
Verification of the release-notes-manager core: commit classification,
reference-link rewriting, note formatting, section assembly and document
building, embedded from the C++ sources (Utils.cpp, Format.cpp, Main.cpp,
release_notes_generator.cpp).  Strings are modelled as lists of characters.
-/

set_option maxHeartbeats 1000000

/-- Result of matching a commit message against a commit type (Enums.h). -/
inductive CommitTypeMatchResults where
  | MatchWithoutSubCategory
  | MatchWithSubCategory
  | NoMatch
deriving DecidableEq, Repr

/-- One commit type of the configured registry: the conventional name
(for example fix, feat) and the markdown title of its section
(config.commitTypes rows, Config.h). -/
structure CommitTypeSpec where
  conventionalName : List Char
  markdownTitle : List Char
deriving DecidableEq, Repr

/-- Embeds checkCommitTypeMatch (Utils.cpp lines 89-101).
substr(0, find(c)) is the prefix of the string up to the first c,
or the whole string when c does not occur: exactly takeWhile (not c). -/
def checkCommitTypeMatch (commitMessage : List Char) (spec : CommitTypeSpec) :
    CommitTypeMatchResults :=
  if commitMessage.takeWhile (fun c => c ≠ ':') = spec.conventionalName then
    CommitTypeMatchResults.MatchWithoutSubCategory
  else if commitMessage.takeWhile (fun c => c ≠ '(') = spec.conventionalName then
    CommitTypeMatchResults.MatchWithSubCategory
  else
    CommitTypeMatchResults.NoMatch

/-- The markdown link text that replaceHashIdsWithLinks (Format.cpp line 59)
inserts for a hash id: [#id](repoIssuesUrl id). -/
def hashLink (repoIssuesUrl currentNumericId : List Char) : List Char :=
  '[' :: '#' :: (currentNumericId ++ ']' :: '(' ::
    (repoIssuesUrl ++ currentNumericId ++ [')']))

/-- Fuelled scanner behind findHashMatches; the fuel only certifies
termination (one unit per consumed character) and is supplied as the length
of the scanned string, so the zero case is never reached from the wrapper. -/
def findHashMatchesAux : Nat → List Char → Nat → List (Nat × List Char)
  | 0, _, _ => []
  | _ + 1, [], _ => []
  | fuel + 1, c :: rest, pos =>
    if c = '#' then
      let ds := rest.takeWhile Char.isDigit
      if ds = [] then
        findHashMatchesAux fuel rest (pos + 1)
      else
        (pos, ds) :: findHashMatchesAux fuel (rest.drop ds.length) (pos + 1 + ds.length)
    else
      findHashMatchesAux fuel rest (pos + 1)

/-- The matches that the sregex_iterator over pattern #(\d+) yields on the
original string (Format.cpp lines 49-53): position of the occurrence and the
digits of the first capture group, scanning left to right, each next search
starting after the previous match. -/
def findHashMatches (s : List Char) (pos : Nat) : List (Nat × List Char) :=
  findHashMatchesAux s.length s pos

/-- result.erase(pos, len) followed by result.insert(pos, repl)
(Format.cpp lines 58-59 and 85-86). -/
def spliceAt (s : List Char) (pos len : Nat) (repl : List Char) : List Char :=
  s.take pos ++ repl ++ s.drop (pos + len)

/-- The loop of replaceHashIdsWithLinks (Format.cpp lines 53-63): walk the
matches found in the original string, erasing and inserting in the mutated
result at position + numberOfNewCharactersAdded, adding
4 + repoIssuesUrl.length + id.length per replacement. -/
def applyHashMatches (repoIssuesUrl : List Char) :
    List (Nat × List Char) → Nat → List Char → List Char
  | [], _, result => result
  | (pos, currentNumericId) :: ms, added, result =>
    applyHashMatches repoIssuesUrl ms
      (added + 4 + repoIssuesUrl.length + currentNumericId.length)
      (spliceAt result (pos + added) (1 + currentNumericId.length)
        (hashLink repoIssuesUrl currentNumericId))

/-- Embeds replaceHashIdsWithLinks (Format.cpp lines 42-66); the repository
issues URL (global config.repoIssuesUrl) is passed explicitly. -/
def replaceHashIdsWithLinks (repoIssuesUrl s : List Char) : List Char :=
  applyHashMatches repoIssuesUrl (findHashMatches s 0) 0 s

/-- Fuelled scanner behind hashIdScanSpec (fuel as in findHashMatchesAux). -/
def hashIdScanSpecAux (repoIssuesUrl : List Char) : Nat → List Char → List Char
  | 0, _ => []
  | _ + 1, [] => []
  | fuel + 1, c :: rest =>
    if c = '#' then
      let ds := rest.takeWhile Char.isDigit
      if ds = [] then
        c :: hashIdScanSpecAux repoIssuesUrl fuel rest
      else
        hashLink repoIssuesUrl ds ++
          hashIdScanSpecAux repoIssuesUrl fuel (rest.drop ds.length)
    else
      c :: hashIdScanSpecAux repoIssuesUrl fuel rest

/-- Follows the specification words for the hash-id rewrite: a single
left-to-right scan that emits literal spans unchanged and replaces every
occurrence of hash followed by one or more digits with the markdown link,
never re-querying positions in a mutated string. -/
def hashIdScanSpec (repoIssuesUrl : List Char) (s : List Char) : List Char :=
  hashIdScanSpecAux repoIssuesUrl s.length s

/-- The left boundary character class [ (] of the commit-SHA pattern
(Format.cpp line 74). -/
def isShaBoundaryLeft (c : Char) : Bool :=
  c = ' ' || c = '('

/-- The right boundary character class [ )] of the commit-SHA pattern
(Format.cpp line 74). -/
def isShaBoundaryRight (c : Char) : Bool :=
  c = ' ' || c = ')'

/-- The character class [0-9a-f] of the commit-SHA pattern
(codes 48-57 and 97-102). -/
def isCommitShaChar (c : Char) : Bool :=
  (decide (48 ≤ c.toNat) && decide (c.toNat ≤ 57)) ||
    (decide (97 ≤ c.toNat) && decide (c.toNat ≤ 102))

/-- Whether the list starts with a right boundary character: the pattern
must consume one more character after the hexadecimal run. -/
def hasRightBoundary : List Char → Bool
  | [] => false
  | d :: _ => isShaBoundaryRight d

/-- The replacement text that replaceCommitShasWithLinks (Format.cpp line 86)
inserts: space, [first 6 characters](repoCommitsUrl full run), space. -/
def shaLink (repoCommitsUrl currentSha : List Char) : List Char :=
  ' ' :: '[' :: (currentSha.take 6 ++ ']' :: '(' ::
    (repoCommitsUrl ++ currentSha ++ [')', ' ']))

/-- Fuelled scanner behind findShaMatches (fuel = length of the scanned
string; one unit per consumed character). -/
def findShaMatchesAux : Nat → List Char → Nat → List (Nat × List Char)
  | 0, _, _ => []
  | _ + 1, [], _ => []
  | fuel + 1, c :: rest, pos =>
    if isShaBoundaryLeft c = true then
      let run := rest.takeWhile isCommitShaChar
      if 6 ≤ run.length ∧ run.length ≤ 40 ∧
          hasRightBoundary (rest.drop run.length) = true then
        (pos, run) :: findShaMatchesAux fuel (rest.drop (run.length + 1))
          (pos + run.length + 2)
      else
        findShaMatchesAux fuel rest (pos + 1)
    else
      findShaMatchesAux fuel rest (pos + 1)

/-- The matches that the sregex_iterator over pattern [ (]([0-9a-f]{6,40})[ )]
yields on the original string (Format.cpp lines 78-83): position of the
occurrence (at its left boundary character) and the hexadecimal run of the
first capture group.  A match consumes both boundary characters, and the
next search resumes after the consumed right boundary; at a left boundary
the greedy {6,40} repetition can only succeed by taking the whole maximal
hexadecimal run, since any shorter take is followed by another hexadecimal
character, which is not in [ )]. -/
def findShaMatches (s : List Char) (pos : Nat) : List (Nat × List Char) :=
  findShaMatchesAux s.length s pos

/-- The loop of replaceCommitShasWithLinks (Format.cpp lines 81-88): erase
the matched length (run plus two boundaries) at position +
numberOfNewCharactersAdded, insert the replacement, and add
4 + repoCommitsUrl.length + 6 new characters per replacement. -/
def applyShaMatches (repoCommitsUrl : List Char) :
    List (Nat × List Char) → Nat → List Char → List Char
  | [], _, result => result
  | (pos, currentSha) :: ms, added, result =>
    applyShaMatches repoCommitsUrl ms (added + 4 + repoCommitsUrl.length + 6)
      (spliceAt result (pos + added) (currentSha.length + 2)
        (shaLink repoCommitsUrl currentSha))

/-- Embeds replaceCommitShasWithLinks (Format.cpp lines 73-91); the
repository commits URL (global config.repoCommitsUrl) is passed
explicitly. -/
def replaceCommitShasWithLinks (repoCommitsUrl s : List Char) : List Char :=
  applyShaMatches repoCommitsUrl (findShaMatches s 0) 0 s

/-- Fuelled scanner behind shaScanSpec (fuel as in findShaMatchesAux). -/
def shaScanSpecAux (repoCommitsUrl : List Char) : Nat → List Char → List Char
  | 0, _ => []
  | _ + 1, [] => []
  | fuel + 1, c :: rest =>
    if isShaBoundaryLeft c = true then
      let run := rest.takeWhile isCommitShaChar
      if 6 ≤ run.length ∧ run.length ≤ 40 ∧
          hasRightBoundary (rest.drop run.length) = true then
        shaLink repoCommitsUrl run ++
          shaScanSpecAux repoCommitsUrl fuel (rest.drop (run.length + 1))
      else
        c :: shaScanSpecAux repoCommitsUrl fuel rest
    else
      c :: shaScanSpecAux repoCommitsUrl fuel rest

/-- Follows the specification words for the commit-SHA rewrite: a single
left-to-right scan replacing every bounded 6-to-40 character hexadecimal
run (boundaries consumed) and emitting everything else unchanged. -/
def shaScanSpec (repoCommitsUrl : List Char) (s : List Char) : List Char :=
  shaScanSpecAux repoCommitsUrl s.length s

/-- Embeds indentAllLinesInString (Format.cpp lines 22-35): four spaces are
emitted before a character whenever the previous character was a newline
(or at the very start). -/
def indentAllLinesInString (s : List Char) : List Char :=
  (s.foldl
    (fun st c =>
      let r := if st.1 then st.2 ++ [' ', ' ', ' ', ' '] else st.2
      (decide (c = '\n'), r ++ [c]))
    ((true : Bool), ([] : List Char))).2

/-- Embeds removeExtraNewLines (Format.cpp lines 98-108): every carriage
return is replaced by two spaces. -/
def removeExtraNewLines (s : List Char) : List Char :=
  s.foldr (fun c acc => (if c = '\r' then [' ', ' '] else [c]) ++ acc) []

/-- Embeds formatPullRequestBody (Format.cpp lines 115-121): hash-id
rewrite, then commit-SHA rewrite, then line-ending normalization. -/
def formatPullRequestBody (repoIssuesUrl repoCommitsUrl s : List Char) : List Char :=
  removeExtraNewLines
    (replaceCommitShasWithLinks repoCommitsUrl
      (replaceHashIdsWithLinks repoIssuesUrl s))

/-- toupper applied to the first character of a string; on the empty string
this is a no-op (the specification fixes this edge case). -/
def capitalizeFirst : List Char → List Char
  | [] => []
  | c :: rest => c.toUpper :: rest

/-- Modelled from the spec: convertConventionalCommitTitleToReleaseNoteTitle
is declared in Format.h (lines 19-20) and called from Main.cpp, but its
implementation file is not among the sources.  Following the specification
of the entry formatter: remove everything up to and including the first
colon plus one following space and capitalize the first remaining
character; when the classification carries a subcategory (the text between
the first opening and the first closing parenthesis of the title), prepend
the capitalized subcategory in the form open-paren subcategory
" Related) " right after the markdown prefix; terminate with a newline. -/
def convertConventionalCommitTitleToReleaseNoteTitle
    (conventionalCommitTitle : List Char) (matchResult : CommitTypeMatchResults)
    (markdownPrefixText : List Char) : List Char :=
  let subCategoryText : List Char :=
    if matchResult = CommitTypeMatchResults.MatchWithSubCategory then
      '(' :: (capitalizeFirst
        ((conventionalCommitTitle.drop
            ((conventionalCommitTitle.takeWhile (fun c => c ≠ '(')).length + 1)).takeWhile
          (fun c => c ≠ ')')) ++ " Related) ".toList)
    else []
  let strippedTitle := capitalizeFirst
    (conventionalCommitTitle.drop
      ((conventionalCommitTitle.takeWhile (fun c => c ≠ ':')).length + 2))
  markdownPrefixText ++ subCategoryText ++ strippedTitle ++ ['\n']

/-- npos of std::string on a 64-bit size_t. -/
def cppNpos : Nat := 2 ^ 64 - 1

/-- std::string::find for a single character: index of the first occurrence,
npos when absent. -/
def strFind (s : List Char) (c : Char) : Nat :=
  if c ∈ s then (s.takeWhile (fun x => x ≠ c)).length else cppNpos

/-- Subtraction on size_t (wraps modulo 2^64; faithful for operands below
2^64, which holds for every position in a real std::string). -/
def sizeTSub (a b : Nat) : Nat :=
  if b ≤ a then a - b else a + 2 ^ 64 - b

/-- std::string::substr(pos, count): count is clamped to the remaining
length. -/
def cppSubstr (s : List Char) (pos count : Nat) : List Char :=
  (s.drop pos).take count

/-- Embeds the subcategory extraction of getCommitsNotesFromCommitMessages
(release_notes_generator.cpp lines 897-899): startPos = find of the first
opening parenthesis plus one, and the extracted text is
substr(startPos, find of the first closing parenthesis minus startPos),
where the subtraction is on size_t. -/
def extractedSubCategory (commitMessage : List Char) : List Char :=
  let startPos := (strFind commitMessage '(' + 1) % 2 ^ 64
  cppSubstr commitMessage startPos
    (sizeTSub (strFind commitMessage ')') startPos)

/-- Release note source (Enums.h). -/
inductive ReleaseNoteSources where
  | CommitMessages
  | PullRequests
deriving DecidableEq, Repr

/-- Release note mode (Enums.h). -/
inductive ReleaseNoteModes where
  | Short
  | Full
deriving DecidableEq, Repr

/-- The fields of the pull-request JSON that the program reads: a field is
none when it is null or absent (nlohmann json is_null checks in
Main.cpp lines 151 and 164). -/
structure PullRequestInfo where
  title : Option (List Char)
  body : Option (List Char)
deriving DecidableEq, Repr

/-- Embeds addPullRequestInfoInNotes (Main.cpp lines 149-175).  The global
configuration strings are passed explicitly; the by-reference notes
accumulation becomes explicit state passing. -/
def addPullRequestInfoInNotes (pullRequestInfo : PullRequestInfo)
    (pullRequestsReleaseNotes : List Char) (releaseNotesMode : ReleaseNoteModes)
    (spec : CommitTypeSpec)
    (markdownReleaseNotePrefixText markdownFullModeReleaseNotePrefixText : List Char)
    (repoIssuesUrl repoCommitsUrl : List Char) : List Char :=
  let notes1 :=
    match pullRequestInfo.title with
    | some title =>
      let matchResult := checkCommitTypeMatch title spec
      if releaseNotesMode = ReleaseNoteModes.Full then
        pullRequestsReleaseNotes ++
          convertConventionalCommitTitleToReleaseNoteTitle title matchResult
            markdownFullModeReleaseNotePrefixText
      else
        pullRequestsReleaseNotes ++
          convertConventionalCommitTitleToReleaseNoteTitle title matchResult
            markdownReleaseNotePrefixText
    | none => pullRequestsReleaseNotes
  let notes2 :=
    match releaseNotesMode, pullRequestInfo.body with
    | ReleaseNoteModes.Full, some body =>
      notes1 ++
        indentAllLinesInString
          (formatPullRequestBody repoIssuesUrl repoCommitsUrl
            (capitalizeFirst body)) ++ ['\n']
    | _, _ => notes1
  notes2 ++ ['\n']

/-- The first capture group of regex_search with pattern #(\d+)
(Main.cpp lines 276-283): the digits of the first hash id, if any. -/
def firstHashNumber (commitMessage : List Char) : Option (List Char) :=
  (findHashMatches commitMessage 0).head?.map (fun m => m.2)

/-- Embeds getCommitsNotesFromCommitMessages (Main.cpp lines 311-348).  The
lines that the git log subprocess produces are the commitMessages
parameter.  Note that the flag commitTypeContainsReleaseNotes is assigned 1
at the top of the reading loop, i.e. exactly when at least one line was
read, which the final isEmpty test reflects. -/
def getCommitsNotesFromCommitMessages (spec : CommitTypeSpec)
    (markdownReleaseNotePrefixText : List Char)
    (commitMessages : List (List Char)) : List Char :=
  let initialNotes := '\n' :: (spec.markdownTitle ++ ['\n'])
  let releaseNotesFromCommitMessages :=
    commitMessages.foldl
      (fun notes commitMessage =>
        let matchResult := checkCommitTypeMatch commitMessage spec
        if matchResult ≠ CommitTypeMatchResults.NoMatch then
          notes ++ convertConventionalCommitTitleToReleaseNoteTitle commitMessage
            matchResult markdownReleaseNotePrefixText
        else notes)
      initialNotes
  if commitMessages.isEmpty then [] else releaseNotesFromCommitMessages

/-- Embeds getCommitsNotesFromPullRequests (Main.cpp lines 248-300).  The
PR-info collaborator (getPullRequestInfo plus json parsing) is modelled as
the total function fetchPullRequestInfo from the extracted pull request
number to the parsed fields; its failure propagation is not needed for the
properties proved below, which never reach a fetch.  As in the commit
message variant, the commitTypeContainsReleaseNotes flag is set on every
line read. -/
def getCommitsNotesFromPullRequests (spec : CommitTypeSpec)
    (releaseNotesMode : ReleaseNoteModes)
    (fetchPullRequestInfo : List Char → PullRequestInfo)
    (markdownReleaseNotePrefixText markdownFullModeReleaseNotePrefixText : List Char)
    (repoIssuesUrl repoCommitsUrl : List Char)
    (commitMessages : List (List Char)) : List Char :=
  let initialNotes := '\n' :: (spec.markdownTitle ++ ['\n'])
  let releaseNotesFromPullRequests :=
    commitMessages.foldl
      (fun notes commitMessage =>
        let matchResult := checkCommitTypeMatch commitMessage spec
        if matchResult ≠ CommitTypeMatchResults.NoMatch then
          match firstHashNumber commitMessage with
          | some commitPullRequestNumber =>
            addPullRequestInfoInNotes
              (fetchPullRequestInfo commitPullRequestNumber) notes
              releaseNotesMode spec markdownReleaseNotePrefixText
              markdownFullModeReleaseNotePrefixText repoIssuesUrl repoCommitsUrl
          | none => notes
        else notes)
      initialNotes
  if commitMessages.isEmpty then [] else releaseNotesFromPullRequests

/-- The failure of the document build distinguished by the specification:
the empty-result fatal error. -/
inductive NotesError where
  | emptyReleaseNotes
deriving DecidableEq, Repr

/-- Modelled from the spec: writeGeneratedNotesInFiles is called by
generateReleaseNotes and generatePullRequestChangeNote (Main.cpp lines 378
and 405) but its definition is not among the sources (Config.cpp loads the
emptyReleaseNotesMessage string for it).  Per the specification the build
raises the empty-result fatal error when the final concatenation is empty
instead of silently writing an empty document; the file and HTML sink
effects are outside this model, so a successful write returns the document
unchanged. -/
def writeGeneratedNotesInFiles (markdownReleaseNotes : List Char) :
    Except NotesError (List Char) :=
  if markdownReleaseNotes.isEmpty then Except.error NotesError.emptyReleaseNotes
  else Except.ok markdownReleaseNotes

/-- The source dispatch inside the loop of generateReleaseNotes
(Main.cpp lines 370-375). -/
def sectionNotes (releaseNoteSource : ReleaseNoteSources)
    (releaseNoteMode : ReleaseNoteModes)
    (fetchPullRequestInfo : List Char → PullRequestInfo)
    (markdownReleaseNotePrefixText markdownFullModeReleaseNotePrefixText : List Char)
    (repoIssuesUrl repoCommitsUrl : List Char)
    (spec : CommitTypeSpec) (commitMessages : List (List Char)) : List Char :=
  match releaseNoteSource with
  | ReleaseNoteSources.CommitMessages =>
    getCommitsNotesFromCommitMessages spec markdownReleaseNotePrefixText
      commitMessages
  | ReleaseNoteSources.PullRequests =>
    getCommitsNotesFromPullRequests spec releaseNoteMode fetchPullRequestInfo
      markdownReleaseNotePrefixText markdownFullModeReleaseNotePrefixText
      repoIssuesUrl repoCommitsUrl commitMessages

/-- Embeds generateReleaseNotes (Main.cpp lines 361-381): iterate the
configured commit types in order, concatenate the per-type sections, and
hand the document to writeGeneratedNotesInFiles.  The git log collaborator
is modelled as linesFor, the lines it produces for the filter of one commit
type. -/
def generateReleaseNotes (releaseNoteSource : ReleaseNoteSources)
    (commitTypes : List CommitTypeSpec) (releaseNoteMode : ReleaseNoteModes)
    (fetchPullRequestInfo : List Char → PullRequestInfo)
    (markdownReleaseNotePrefixText markdownFullModeReleaseNotePrefixText : List Char)
    (repoIssuesUrl repoCommitsUrl : List Char)
    (linesFor : CommitTypeSpec → List (List Char)) :
    Except NotesError (List Char) :=
  let markdownReleaseNotes :=
    commitTypes.foldl
      (fun acc spec =>
        acc ++ sectionNotes releaseNoteSource releaseNoteMode fetchPullRequestInfo
          markdownReleaseNotePrefixText markdownFullModeReleaseNotePrefixText
          repoIssuesUrl repoCommitsUrl spec (linesFor spec))
      []
  writeGeneratedNotesInFiles markdownReleaseNotes

/-- The typed errors of the GitHub API layer, one per distinct
runtime_error of getPullRequestInfo (Main.cpp lines 183-235) and
handleGithubApiErrorCodes (Utils.cpp lines 71-81). -/
inductive GithubApiError where
  | rateLimitExceeded
  | unauthorizedAccess
  | badRequest
  | notFound
  | requestNotProcessed
  | unableToMakeRequest
  | libcurlInitError
deriving DecidableEq, Repr

/-- The outcome of the libcurl call in getPullRequestInfo: initialization
failure (curl_easy_init returned null), transport failure (curl_easy_perform
did not return CURLE_OK), or a response with an HTTP status code and a
body. -/
inductive CurlOutcome where
  | initFailure
  | performFailure
  | response (httpCode : Nat) (body : List Char)
deriving DecidableEq, Repr

/-- Embeds handleGithubApiErrorCodes (Utils.cpp lines 71-81): a thrown
runtime_error becomes some error; for every code outside 429, 403, 401 and
400 the function returns normally, which becomes none. -/
def handleGithubApiErrorCodes (errorCode : Nat) : Option GithubApiError :=
  if errorCode = 429 ∨ errorCode = 403 then some GithubApiError.rateLimitExceeded
  else if errorCode = 401 then some GithubApiError.unauthorizedAccess
  else if errorCode = 400 then some GithubApiError.badRequest
  else none

/-- Embeds getPullRequestInfo (Main.cpp lines 183-235) as a pure dispatch
on the outcome of the single libcurl call.  Mind the last branch: when
handleGithubApiErrorCodes throws nothing, control falls through the
cleanup calls to the final return of jsonResponse. -/
def getPullRequestInfo (curlOutcome : CurlOutcome) :
    Except GithubApiError (List Char) :=
  match curlOutcome with
  | CurlOutcome.initFailure => Except.error GithubApiError.libcurlInitError
  | CurlOutcome.performFailure => Except.error GithubApiError.unableToMakeRequest
  | CurlOutcome.response httpCode jsonResponse =>
    if httpCode = 200 then Except.ok jsonResponse
    else if httpCode = 503 ∨ httpCode = 500 ∨ httpCode = 422 ∨ httpCode = 406 then
      Except.error GithubApiError.requestNotProcessed
    else if httpCode = 404 then Except.error GithubApiError.notFound
    else
      match handleGithubApiErrorCodes httpCode with
      | some e => Except.error e
      | none => Except.ok jsonResponse

/-- Whether the string contains a hash followed by at least one digit,
i.e. whether the hash-id pattern has a match. -/
def hasHashId : List Char → Bool
  | [] => false
  | c :: rest =>
    if c = '#' ∧ rest.takeWhile Char.isDigit ≠ [] then true else hasHashId rest

lemma length_drop_le (l : List Char) (k : Nat) : (l.drop k).length ≤ l.length := by
  simp

lemma findHashMatchesAux_irrel :
    ∀ (n m : Nat) (s : List Char) (pos : Nat), s.length ≤ n → s.length ≤ m →
      findHashMatchesAux n s pos = findHashMatchesAux m s pos := by
  intro n
  induction n with
  | zero =>
    intro m s pos hn _
    have hs : s = [] := List.length_eq_zero.mp (Nat.le_zero.mp hn)
    subst hs
    cases m <;> rfl
  | succ n ih =>
    intro m s pos hn hm
    cases s with
    | nil => cases m <;> rfl
    | cons c rest =>
      cases m with
      | zero => simp at hm
      | succ m =>
        simp only [findHashMatchesAux]
        by_cases hc : c = '#'
        · simp only [hc, if_true]
          by_cases hd : rest.takeWhile Char.isDigit = []
          · simp only [hd, if_true]
            exact ih m rest (pos + 1) (by simp at hn; omega) (by simp at hm; omega)
          · simp only [hd, if_false]
            have h1 := length_drop_le rest (rest.takeWhile Char.isDigit).length
            simp at hn hm
            rw [ih m (rest.drop (rest.takeWhile Char.isDigit).length) _ (by omega) (by omega)]
        · simp only [hc, if_false]
          exact ih m rest (pos + 1) (by simp at hn; omega) (by simp at hm; omega)

lemma findHashMatches_nil (pos : Nat) : findHashMatches [] pos = [] := rfl

lemma findHashMatches_cons (c : Char) (rest : List Char) (pos : Nat) :
    findHashMatches (c :: rest) pos =
      if c = '#' then
        if rest.takeWhile Char.isDigit = [] then
          findHashMatches rest (pos + 1)
        else
          (pos, rest.takeWhile Char.isDigit) ::
            findHashMatches (rest.drop (rest.takeWhile Char.isDigit).length)
              (pos + 1 + (rest.takeWhile Char.isDigit).length)
      else
        findHashMatches rest (pos + 1) := by
  show findHashMatchesAux (rest.length + 1) (c :: rest) pos = _
  simp only [findHashMatchesAux, findHashMatches]
  by_cases hc : c = '#'
  · simp only [hc, if_true]
    by_cases hd : rest.takeWhile Char.isDigit = []
    · simp only [hd, if_true]
    · simp only [hd, if_false]
      rw [findHashMatchesAux_irrel rest.length
            (rest.drop (rest.takeWhile Char.isDigit).length).length
            (rest.drop (rest.takeWhile Char.isDigit).length) _
            (length_drop_le _ _) (Nat.le_refl _)]
  · simp only [hc, if_false]

lemma hashIdScanSpecAux_irrel (repoIssuesUrl : List Char) :
    ∀ (n m : Nat) (s : List Char), s.length ≤ n → s.length ≤ m →
      hashIdScanSpecAux repoIssuesUrl n s = hashIdScanSpecAux repoIssuesUrl m s := by
  intro n
  induction n with
  | zero =>
    intro m s hn _
    have hs : s = [] := List.length_eq_zero.mp (Nat.le_zero.mp hn)
    subst hs
    cases m <;> rfl
  | succ n ih =>
    intro m s hn hm
    cases s with
    | nil => cases m <;> rfl
    | cons c rest =>
      cases m with
      | zero => simp at hm
      | succ m =>
        simp only [hashIdScanSpecAux]
        by_cases hc : c = '#'
        · simp only [hc, if_true]
          by_cases hd : rest.takeWhile Char.isDigit = []
          · simp only [hd, if_true]
            rw [ih m rest (by simp at hn; omega) (by simp at hm; omega)]
          · simp only [hd, if_false]
            have h1 := length_drop_le rest (rest.takeWhile Char.isDigit).length
            simp at hn hm
            rw [ih m (rest.drop (rest.takeWhile Char.isDigit).length) (by omega) (by omega)]
        · simp only [hc, if_false]
          rw [ih m rest (by simp at hn; omega) (by simp at hm; omega)]

lemma hashIdScanSpec_nil (repoIssuesUrl : List Char) :
    hashIdScanSpec repoIssuesUrl [] = [] := rfl

lemma hashIdScanSpec_cons (repoIssuesUrl : List Char) (c : Char) (rest : List Char) :
    hashIdScanSpec repoIssuesUrl (c :: rest) =
      if c = '#' then
        if rest.takeWhile Char.isDigit = [] then
          c :: hashIdScanSpec repoIssuesUrl rest
        else
          hashLink repoIssuesUrl (rest.takeWhile Char.isDigit) ++
            hashIdScanSpec repoIssuesUrl
              (rest.drop (rest.takeWhile Char.isDigit).length)
      else
        c :: hashIdScanSpec repoIssuesUrl rest := by
  show hashIdScanSpecAux repoIssuesUrl (rest.length + 1) (c :: rest) = _
  simp only [hashIdScanSpecAux, hashIdScanSpec]
  by_cases hc : c = '#'
  · simp only [hc, if_true]
    by_cases hd : rest.takeWhile Char.isDigit = []
    · simp only [hd, if_true]
    · simp only [hd, if_false]
      rw [hashIdScanSpecAux_irrel repoIssuesUrl rest.length
            (rest.drop (rest.takeWhile Char.isDigit).length).length
            (rest.drop (rest.takeWhile Char.isDigit).length)
            (length_drop_le _ _) (Nat.le_refl _)]
  · simp only [hc, if_false]

lemma take_len_append (l₁ l₂ : List Char) : (l₁ ++ l₂).take l₁.length = l₁ := by
  induction l₁ with
  | nil => rfl
  | cons a t ih => rw [List.cons_append, List.length_cons, List.take_succ_cons, ih]

lemma drop_len_add_append (l₁ l₂ : List Char) (n : Nat) :
    (l₁ ++ l₂).drop (l₁.length + n) = l₂.drop n := by
  induction l₁ with
  | nil => simp
  | cons a t ih =>
    rw [List.cons_append, List.length_cons, Nat.add_right_comm, List.drop_succ_cons, ih]

lemma take_of_le_len (l : List Char) (n : Nat) (h : l.length ≤ n) : l.take n = l := by
  induction l generalizing n with
  | nil => simp
  | cons a t ih =>
    cases n with
    | zero => simp at h
    | succ m =>
      rw [List.take_succ_cons, ih m (by simp at h; omega)]

lemma hashLink_length (repoIssuesUrl currentNumericId : List Char) :
    (hashLink repoIssuesUrl currentNumericId).length =
      5 + repoIssuesUrl.length + 2 * currentNumericId.length := by
  simp [hashLink]
  omega

lemma applyHashMatches_spec (repoIssuesUrl : List Char) :
    ∀ (n : Nat) (s acc : List Char) (p add : Nat), s.length ≤ n →
      acc.length = p + add →
      applyHashMatches repoIssuesUrl (findHashMatches s p) add (acc ++ s) =
        acc ++ hashIdScanSpec repoIssuesUrl s := by
  intro n
  induction n with
  | zero =>
    intro s acc p add hn hacc
    have hs : s = [] := List.length_eq_zero.mp (Nat.le_zero.mp hn)
    subst hs
    simp [findHashMatches_nil, hashIdScanSpec_nil, applyHashMatches]
  | succ n ih =>
    intro s acc p add hn hacc
    cases s with
    | nil => simp [findHashMatches_nil, hashIdScanSpec_nil, applyHashMatches]
    | cons c rest =>
      rw [findHashMatches_cons, hashIdScanSpec_cons]
      by_cases hc : c = '#'
      · simp only [hc, if_true]
        by_cases hd : rest.takeWhile Char.isDigit = []
        · simp only [hd, if_true]
          have e : acc ++ '#' :: rest = (acc ++ ['#']) ++ rest := by simp
          rw [e, ih rest (acc ++ ['#']) (p + 1) add (by simp at hn; omega)
                (by simp [hacc]; omega)]
          simp
        · simp only [hd, if_false, applyHashMatches]
          have hsplice :
              spliceAt (acc ++ '#' :: rest) (p + add)
                  (1 + (rest.takeWhile Char.isDigit).length)
                  (hashLink repoIssuesUrl (rest.takeWhile Char.isDigit)) =
                (acc ++ hashLink repoIssuesUrl (rest.takeWhile Char.isDigit)) ++
                  rest.drop (rest.takeWhile Char.isDigit).length := by
            unfold spliceAt
            have h1 : (acc ++ '#' :: rest).take (p + add) = acc := by
              rw [← hacc, take_len_append]
            have h2 : (acc ++ '#' :: rest).drop
                  (p + add + (1 + (rest.takeWhile Char.isDigit).length)) =
                rest.drop (rest.takeWhile Char.isDigit).length := by
              rw [← hacc, drop_len_add_append]
              rw [Nat.add_comm 1 (rest.takeWhile Char.isDigit).length,
                List.drop_succ_cons]
            rw [h1, h2]
          rw [hsplice,
            ih (rest.drop (rest.takeWhile Char.isDigit).length)
              (acc ++ hashLink repoIssuesUrl (rest.takeWhile Char.isDigit))
              (p + 1 + (rest.takeWhile Char.isDigit).length)
              (add + 4 + repoIssuesUrl.length + (rest.takeWhile Char.isDigit).length)
              (by
                have h1 := length_drop_le rest (rest.takeWhile Char.isDigit).length
                simp at hn
                omega)
              (by
                simp [hashLink_length, hacc]
                omega)]
          simp
      · rw [if_neg hc, if_neg hc]
        have e : acc ++ c :: rest = (acc ++ [c]) ++ rest := by simp
        rw [e, ih rest (acc ++ [c]) (p + 1) add (by simp at hn; omega)
              (by simp [hacc]; omega)]
        simp

lemma findShaMatchesAux_irrel :
    ∀ (n m : Nat) (s : List Char) (pos : Nat), s.length ≤ n → s.length ≤ m →
      findShaMatchesAux n s pos = findShaMatchesAux m s pos := by
  intro n
  induction n with
  | zero =>
    intro m s pos hn _
    have hs : s = [] := List.length_eq_zero.mp (Nat.le_zero.mp hn)
    subst hs
    cases m <;> rfl
  | succ n ih =>
    intro m s pos hn hm
    cases s with
    | nil => cases m <;> rfl
    | cons c rest =>
      cases m with
      | zero => simp at hm
      | succ m =>
        simp only [findShaMatchesAux]
        by_cases hc : isShaBoundaryLeft c = true
        · simp only [hc, if_true]
          by_cases hd : 6 ≤ (rest.takeWhile isCommitShaChar).length ∧
              (rest.takeWhile isCommitShaChar).length ≤ 40 ∧
              hasRightBoundary (rest.drop (rest.takeWhile isCommitShaChar).length) = true
          · simp only [if_pos hd]
            have h1 := length_drop_le rest ((rest.takeWhile isCommitShaChar).length + 1)
            simp at hn hm
            rw [ih m (rest.drop ((rest.takeWhile isCommitShaChar).length + 1)) _
                  (by omega) (by omega)]
          · simp only [if_neg hd]
            exact ih m rest (pos + 1) (by simp at hn; omega) (by simp at hm; omega)
        · simp only [hc, if_false]
          exact ih m rest (pos + 1) (by simp at hn; omega) (by simp at hm; omega)

lemma findShaMatches_nil (pos : Nat) : findShaMatches [] pos = [] := rfl

lemma findShaMatches_cons (c : Char) (rest : List Char) (pos : Nat) :
    findShaMatches (c :: rest) pos =
      if isShaBoundaryLeft c = true then
        if 6 ≤ (rest.takeWhile isCommitShaChar).length ∧
            (rest.takeWhile isCommitShaChar).length ≤ 40 ∧
            hasRightBoundary (rest.drop (rest.takeWhile isCommitShaChar).length) = true then
          (pos, rest.takeWhile isCommitShaChar) ::
            findShaMatches (rest.drop ((rest.takeWhile isCommitShaChar).length + 1))
              (pos + (rest.takeWhile isCommitShaChar).length + 2)
        else
          findShaMatches rest (pos + 1)
      else
        findShaMatches rest (pos + 1) := by
  show findShaMatchesAux (rest.length + 1) (c :: rest) pos = _
  simp only [findShaMatchesAux, findShaMatches]
  by_cases hc : isShaBoundaryLeft c = true
  · simp only [hc, if_true]
    by_cases hd : 6 ≤ (rest.takeWhile isCommitShaChar).length ∧
        (rest.takeWhile isCommitShaChar).length ≤ 40 ∧
        hasRightBoundary (rest.drop (rest.takeWhile isCommitShaChar).length) = true
    · simp only [if_pos hd]
      rw [findShaMatchesAux_irrel rest.length
            (rest.drop ((rest.takeWhile isCommitShaChar).length + 1)).length
            (rest.drop ((rest.takeWhile isCommitShaChar).length + 1)) _
            (length_drop_le _ _) (Nat.le_refl _)]
    · simp only [if_neg hd]
  · rw [if_neg hc, if_neg hc]

lemma shaScanSpecAux_irrel (repoCommitsUrl : List Char) :
    ∀ (n m : Nat) (s : List Char), s.length ≤ n → s.length ≤ m →
      shaScanSpecAux repoCommitsUrl n s = shaScanSpecAux repoCommitsUrl m s := by
  intro n
  induction n with
  | zero =>
    intro m s hn _
    have hs : s = [] := List.length_eq_zero.mp (Nat.le_zero.mp hn)
    subst hs
    cases m <;> rfl
  | succ n ih =>
    intro m s hn hm
    cases s with
    | nil => cases m <;> rfl
    | cons c rest =>
      cases m with
      | zero => simp at hm
      | succ m =>
        simp only [shaScanSpecAux]
        by_cases hc : isShaBoundaryLeft c = true
        · simp only [hc, if_true]
          by_cases hd : 6 ≤ (rest.takeWhile isCommitShaChar).length ∧
              (rest.takeWhile isCommitShaChar).length ≤ 40 ∧
              hasRightBoundary (rest.drop (rest.takeWhile isCommitShaChar).length) = true
          · simp only [if_pos hd]
            have h1 := length_drop_le rest ((rest.takeWhile isCommitShaChar).length + 1)
            simp at hn hm
            rw [ih m (rest.drop ((rest.takeWhile isCommitShaChar).length + 1))
                  (by omega) (by omega)]
          · simp only [if_neg hd]
            rw [ih m rest (by simp at hn; omega) (by simp at hm; omega)]
        · rw [if_neg hc, if_neg hc]
          rw [ih m rest (by simp at hn; omega) (by simp at hm; omega)]

lemma shaScanSpec_nil (repoCommitsUrl : List Char) :
    shaScanSpec repoCommitsUrl [] = [] := rfl

lemma shaScanSpec_cons (repoCommitsUrl : List Char) (c : Char) (rest : List Char) :
    shaScanSpec repoCommitsUrl (c :: rest) =
      if isShaBoundaryLeft c = true then
        if 6 ≤ (rest.takeWhile isCommitShaChar).length ∧
            (rest.takeWhile isCommitShaChar).length ≤ 40 ∧
            hasRightBoundary (rest.drop (rest.takeWhile isCommitShaChar).length) = true then
          shaLink repoCommitsUrl (rest.takeWhile isCommitShaChar) ++
            shaScanSpec repoCommitsUrl
              (rest.drop ((rest.takeWhile isCommitShaChar).length + 1))
        else
          c :: shaScanSpec repoCommitsUrl rest
      else
        c :: shaScanSpec repoCommitsUrl rest := by
  show shaScanSpecAux repoCommitsUrl (rest.length + 1) (c :: rest) = _
  simp only [shaScanSpecAux, shaScanSpec]
  by_cases hc : isShaBoundaryLeft c = true
  · simp only [hc, if_true]
    by_cases hd : 6 ≤ (rest.takeWhile isCommitShaChar).length ∧
        (rest.takeWhile isCommitShaChar).length ≤ 40 ∧
        hasRightBoundary (rest.drop (rest.takeWhile isCommitShaChar).length) = true
    · simp only [if_pos hd]
      rw [shaScanSpecAux_irrel repoCommitsUrl rest.length
            (rest.drop ((rest.takeWhile isCommitShaChar).length + 1)).length
            (rest.drop ((rest.takeWhile isCommitShaChar).length + 1))
            (length_drop_le _ _) (Nat.le_refl _)]
    · simp only [if_neg hd]
  · rw [if_neg hc, if_neg hc]

lemma shaLink_length (repoCommitsUrl currentSha : List Char)
    (h : 6 ≤ currentSha.length) :
    (shaLink repoCommitsUrl currentSha).length =
      12 + repoCommitsUrl.length + currentSha.length := by
  have h6 : min 6 currentSha.length = 6 := Nat.min_eq_left h
  simp [shaLink, h6]
  omega

lemma applyShaMatches_spec (repoCommitsUrl : List Char) :
    ∀ (n : Nat) (s acc : List Char) (p add : Nat), s.length ≤ n →
      acc.length = p + add →
      applyShaMatches repoCommitsUrl (findShaMatches s p) add (acc ++ s) =
        acc ++ shaScanSpec repoCommitsUrl s := by
  intro n
  induction n with
  | zero =>
    intro s acc p add hn hacc
    have hs : s = [] := List.length_eq_zero.mp (Nat.le_zero.mp hn)
    subst hs
    simp [findShaMatches_nil, shaScanSpec_nil, applyShaMatches]
  | succ n ih =>
    intro s acc p add hn hacc
    cases s with
    | nil => simp [findShaMatches_nil, shaScanSpec_nil, applyShaMatches]
    | cons c rest =>
      rw [findShaMatches_cons, shaScanSpec_cons]
      by_cases hc : isShaBoundaryLeft c = true
      · simp only [hc, if_true]
        by_cases hd : 6 ≤ (rest.takeWhile isCommitShaChar).length ∧
            (rest.takeWhile isCommitShaChar).length ≤ 40 ∧
            hasRightBoundary (rest.drop (rest.takeWhile isCommitShaChar).length) = true
        · simp only [if_pos hd, applyShaMatches]
          have hsplice :
              spliceAt (acc ++ c :: rest) (p + add)
                  ((rest.takeWhile isCommitShaChar).length + 2)
                  (shaLink repoCommitsUrl (rest.takeWhile isCommitShaChar)) =
                (acc ++ shaLink repoCommitsUrl (rest.takeWhile isCommitShaChar)) ++
                  rest.drop ((rest.takeWhile isCommitShaChar).length + 1) := by
            unfold spliceAt
            have h1 : (acc ++ c :: rest).take (p + add) = acc := by
              rw [← hacc, take_len_append]
            have h2 : (acc ++ c :: rest).drop
                  (p + add + ((rest.takeWhile isCommitShaChar).length + 2)) =
                rest.drop ((rest.takeWhile isCommitShaChar).length + 1) := by
              rw [← hacc, drop_len_add_append]
              rw [show (rest.takeWhile isCommitShaChar).length + 2 =
                    ((rest.takeWhile isCommitShaChar).length + 1) + 1 from rfl]
              rw [List.drop_succ_cons]
            rw [h1, h2]
          rw [hsplice,
            ih (rest.drop ((rest.takeWhile isCommitShaChar).length + 1))
              (acc ++ shaLink repoCommitsUrl (rest.takeWhile isCommitShaChar))
              (p + (rest.takeWhile isCommitShaChar).length + 2)
              (add + 4 + repoCommitsUrl.length + 6)
              (by
                have h1 := length_drop_le rest ((rest.takeWhile isCommitShaChar).length + 1)
                simp at hn
                omega)
              (by
                have hl := shaLink_length repoCommitsUrl
                  (rest.takeWhile isCommitShaChar) hd.1
                rw [List.length_append, hl, hacc]
                omega)]
          simp
        · simp only [if_neg hd]
          have e : acc ++ c :: rest = (acc ++ [c]) ++ rest := by simp
          rw [e, ih rest (acc ++ [c]) (p + 1) add (by simp at hn; omega)
                (by simp [hacc]; omega)]
          simp
      · rw [if_neg hc, if_neg hc]
        have e : acc ++ c :: rest = (acc ++ [c]) ++ rest := by simp
        rw [e, ih rest (acc ++ [c]) (p + 1) add (by simp at hn; omega)
              (by simp [hacc]; omega)]
        simp

lemma mem_takeWhile_sat {p : Char → Bool} :
    ∀ (l : List Char) (a : Char), a ∈ l.takeWhile p → p a = true := by
  intro l
  induction l with
  | nil => intro a ha; simp [List.takeWhile] at ha
  | cons c t ih =>
    intro a ha
    rw [List.takeWhile_cons] at ha
    by_cases hc : p c = true
    · rw [if_pos hc] at ha
      rcases List.mem_cons.mp ha with h | h
      · rw [h]; exact hc
      · exact ih a h
    · rw [if_neg hc] at ha
      simp at ha

lemma takeWhile_append_all {p : Char → Bool} (l₁ l₂ : List Char)
    (h : ∀ c ∈ l₁, p c = true) :
    (l₁ ++ l₂).takeWhile p = l₁ ++ l₂.takeWhile p := by
  induction l₁ with
  | nil => simp
  | cons a t ih =>
    rw [List.cons_append, List.takeWhile_cons, if_pos (h a (by simp)),
      ih (fun c hc => h c (by simp [hc])), List.cons_append]

lemma takeWhile_all {p : Char → Bool} (l : List Char)
    (h : ∀ c ∈ l, p c = true) : l.takeWhile p = l := by
  have := takeWhile_append_all l [] h
  simpa using this

lemma takeWhile_append_of_not_all {p : Char → Bool} :
    ∀ (l₁ l₂ : List Char), ¬(∀ c ∈ l₁, p c = true) →
      (l₁ ++ l₂).takeWhile p = l₁.takeWhile p := by
  intro l₁
  induction l₁ with
  | nil => intro l₂ h; exact absurd (by simp) h
  | cons a t ih =>
    intro l₂ h
    rw [List.cons_append, List.takeWhile_cons, List.takeWhile_cons]
    by_cases ha : p a = true
    · rw [if_pos ha, if_pos ha,
        ih l₂ (fun hall => h (by intro c hc; rcases List.mem_cons.mp hc with h1 | h1
                                 · rw [h1]; exact ha
                                 · exact hall c h1))]
    · rw [if_neg ha, if_neg ha]

lemma dropWhile_not_all {p : Char → Bool} :
    ∀ (l : List Char), ¬(∀ c ∈ l, p c = true) →
      ∃ e t, l.dropWhile p = e :: t ∧ p e = false := by
  intro l
  induction l with
  | nil => intro h; exact absurd (by simp) h
  | cons a t ih =>
    intro h
    rw [List.dropWhile_cons]
    by_cases ha : p a = true
    · rw [if_pos ha]
      exact ih (fun hall => h (by intro c hc; rcases List.mem_cons.mp hc with h1 | h1
                                  · rw [h1]; exact ha
                                  · exact hall c h1))
    · rw [if_neg ha]
      exact ⟨a, t, rfl, by simpa using ha⟩

lemma drop_takeWhile_len_eq_dropWhile {p : Char → Bool} :
    ∀ (l : List Char), l.drop (l.takeWhile p).length = l.dropWhile p := by
  intro l
  induction l with
  | nil => rfl
  | cons a t ih =>
    rw [List.takeWhile_cons, List.dropWhile_cons]
    by_cases ha : p a = true
    · rw [if_pos ha, if_pos ha, List.length_cons, List.drop_succ_cons, ih]
    · rw [if_neg ha, if_neg ha]
      rfl

lemma drop_append_of_le (l₁ l₂ : List Char) :
    ∀ (k : Nat), k ≤ l₁.length → (l₁ ++ l₂).drop k = l₁.drop k ++ l₂ := by
  induction l₁ with
  | nil =>
    intro k hk
    have : k = 0 := by simpa using hk
    subst this
    rfl
  | cons a t ih =>
    intro k hk
    cases k with
    | zero => rfl
    | succ m =>
      rw [List.cons_append, List.drop_succ_cons, List.drop_succ_cons,
        ih m (by simp at hk; omega)]

lemma ne_takeWhile_append (c : Char) (l₁ l₂ : List Char) (h : c ∉ l₁) :
    (l₁ ++ c :: l₂).takeWhile (fun x => x ≠ c) = l₁ := by
  rw [takeWhile_append_all l₁ (c :: l₂)
      (fun x hx => by
        simp only [decide_eq_true_eq]
        intro e
        exact h (e ▸ hx)),
    List.takeWhile_cons]
  simp

lemma takeWhile_length_le {p : Char → Bool} (l : List Char) :
    (l.takeWhile p).length ≤ l.length := by
  induction l with
  | nil => simp
  | cons a t ih =>
    rw [List.takeWhile_cons]
    by_cases ha : p a = true
    · rw [if_pos ha]; simpa using ih
    · rw [if_neg ha]; simp

lemma replaceHash_eq_scan (repoIssuesUrl s : List Char) :
    replaceHashIdsWithLinks repoIssuesUrl s = hashIdScanSpec repoIssuesUrl s := by
  have h := applyHashMatches_spec repoIssuesUrl s.length s [] 0 0 (Nat.le_refl _) rfl
  simpa [replaceHashIdsWithLinks] using h

lemma replaceSha_eq_scan (repoCommitsUrl s : List Char) :
    replaceCommitShasWithLinks repoCommitsUrl s = shaScanSpec repoCommitsUrl s := by
  have h := applyShaMatches_spec repoCommitsUrl s.length s [] 0 0 (Nat.le_refl _) rfl
  simpa [replaceCommitShasWithLinks] using h

lemma isCommitShaChar_not_boundaryLeft (c : Char) (h : isCommitShaChar c = true) :
    ¬(isShaBoundaryLeft c = true) := by
  intro hb
  simp only [isShaBoundaryLeft, Bool.or_eq_true, decide_eq_true_eq] at hb
  rcases hb with rfl | rfl <;> simp [isCommitShaChar] at h

lemma shaScan_hex_start (repoCommitsUrl : List Char) :
    ∀ (r rest : List Char), (∀ c ∈ r, isCommitShaChar c = true) →
      shaScanSpec repoCommitsUrl (r ++ rest) = r ++ shaScanSpec repoCommitsUrl rest := by
  intro r
  induction r with
  | nil => intro rest _; rfl
  | cons a t ih =>
    intro rest h
    rw [List.cons_append, shaScanSpec_cons,
      if_neg (isCommitShaChar_not_boundaryLeft a (h a (by simp))),
      ih rest (fun c hc => h c (by simp [hc])), List.cons_append]

lemma shaScan_all_hex (repoCommitsUrl : List Char) (r : List Char)
    (h : ∀ c ∈ r, isCommitShaChar c = true) :
    shaScanSpec repoCommitsUrl r = r := by
  have := shaScan_hex_start repoCommitsUrl r [] h
  simpa [shaScanSpec_nil] using this

lemma shaScan_hex_end (repoCommitsUrl r : List Char)
    (hr : ∀ c ∈ r, isCommitShaChar c = true) :
    ∀ (n : Nat) (pre : List Char), pre.length ≤ n →
      shaScanSpec repoCommitsUrl (pre ++ r) =
        shaScanSpec repoCommitsUrl pre ++ r := by
  intro n
  induction n with
  | zero =>
    intro pre hn
    have hp : pre = [] := List.length_eq_zero.mp (Nat.le_zero.mp hn)
    subst hp
    simpa [shaScanSpec_nil] using shaScan_all_hex repoCommitsUrl r hr
  | succ n ih =>
    intro pre hn
    cases pre with
    | nil => simpa [shaScanSpec_nil] using shaScan_all_hex repoCommitsUrl r hr
    | cons c t =>
      rw [List.cons_append, shaScanSpec_cons, shaScanSpec_cons]
      by_cases hc : isShaBoundaryLeft c = true
      · simp only [hc, if_true]
        by_cases hall : ∀ x ∈ t, isCommitShaChar x = true
        · have ht : t.takeWhile isCommitShaChar = t := takeWhile_all t hall
          have htr : (t ++ r).takeWhile isCommitShaChar = t ++ r := by
            rw [takeWhile_append_all t r hall, takeWhile_all r hr]
          rw [ht, htr]
          have hd1 : t.drop t.length = ([] : List Char) := List.drop_length t
          have hd2 : (t ++ r).drop (t ++ r).length = ([] : List Char) :=
            List.drop_length (t ++ r)
          rw [if_neg (by rw [hd2]; simp [hasRightBoundary]),
            if_neg (by rw [hd1]; simp [hasRightBoundary])]
          rw [ih t (by simp at hn; omega), List.cons_append]
        · have htw : (t ++ r).takeWhile isCommitShaChar = t.takeWhile isCommitShaChar :=
            takeWhile_append_of_not_all t r hall
          obtain ⟨e, t2, hdw, he⟩ := dropWhile_not_all t hall
          have hlt : (t.takeWhile isCommitShaChar).length < t.length := by
            have h1 : t.drop (t.takeWhile isCommitShaChar).length = e :: t2 := by
              rw [drop_takeWhile_len_eq_dropWhile, hdw]
            have h2 := congrArg List.length h1
            simp at h2
            have h3 := takeWhile_length_le (p := isCommitShaChar) t
            omega
          have hdropc : (t ++ r).drop (t.takeWhile isCommitShaChar).length =
              e :: (t2 ++ r) := by
            rw [drop_append_of_le t r _ (Nat.le_of_lt hlt),
              drop_takeWhile_len_eq_dropWhile, hdw, List.cons_append]
          have hdropt : t.drop (t.takeWhile isCommitShaChar).length = e :: t2 := by
            rw [drop_takeWhile_len_eq_dropWhile, hdw]
          rw [htw, hdropc, hdropt]
          by_cases hm : 6 ≤ (t.takeWhile isCommitShaChar).length ∧
              (t.takeWhile isCommitShaChar).length ≤ 40 ∧
              hasRightBoundary (e :: (t2 ++ r)) = true
          · have hm2 : 6 ≤ (t.takeWhile isCommitShaChar).length ∧
                (t.takeWhile isCommitShaChar).length ≤ 40 ∧
                hasRightBoundary (e :: t2) = true := by
              refine ⟨hm.1, hm.2.1, ?_⟩
              have := hm.2.2
              simpa [hasRightBoundary] using this
            rw [if_pos hm, if_pos hm2]
            have hdrop1 : (t ++ r).drop ((t.takeWhile isCommitShaChar).length + 1) =
                t.drop ((t.takeWhile isCommitShaChar).length + 1) ++ r :=
              drop_append_of_le t r _ (by omega)
            rw [hdrop1, ih (t.drop ((t.takeWhile isCommitShaChar).length + 1))
                  (by
                    have := length_drop_le t ((t.takeWhile isCommitShaChar).length + 1)
                    simp at hn
                    omega)]
            rw [List.append_assoc]
          · have hm2 : ¬(6 ≤ (t.takeWhile isCommitShaChar).length ∧
                (t.takeWhile isCommitShaChar).length ≤ 40 ∧
                hasRightBoundary (e :: t2) = true) := by
              intro hx
              exact hm ⟨hx.1, hx.2.1, by
                have := hx.2.2
                simpa [hasRightBoundary] using this⟩
            rw [if_neg hm, if_neg hm2]
            rw [ih t (by simp at hn; omega), List.cons_append]
      · rw [if_neg hc, if_neg hc]
        rw [ih t (by simp at hn; omega), List.cons_append]

lemma shaScan_parens (repoCommitsUrl r : List Char)
    (hr : ∀ c ∈ r, isCommitShaChar c = true)
    (h6 : 6 ≤ r.length) (h40 : r.length ≤ 40) :
    shaScanSpec repoCommitsUrl ('(' :: (r ++ [')'])) = shaLink repoCommitsUrl r := by
  rw [shaScanSpec_cons]
  have hb : isShaBoundaryLeft '(' = true := by decide
  rw [if_pos hb]
  have hrun : (r ++ [')']).takeWhile isCommitShaChar = r := by
    rw [takeWhile_append_all r [')'] hr]
    simp [List.takeWhile_cons]
    decide
  rw [hrun]
  have hdrop : (r ++ [')']).drop r.length = [')'] := by
    have := drop_len_add_append r [')'] 0
    simpa using this
  have hdrop1 : (r ++ [')']).drop (r.length + 1) = ([] : List Char) := by
    have := drop_len_add_append r [')'] 1
    simpa using this
  rw [if_pos ⟨h6, h40, by rw [hdrop]; decide⟩, hdrop1, shaScanSpec_nil,
    List.append_nil]

lemma hasHashId_cons_of (c : Char) (l : List Char) (h : hasHashId l = true) :
    hasHashId (c :: l) = true := by
  show (if c = '#' ∧ l.takeWhile Char.isDigit ≠ [] then true else hasHashId l) = true
  by_cases hx : c = '#' ∧ l.takeWhile Char.isDigit ≠ []
  · rw [if_pos hx]
  · rw [if_neg hx]
    exact h

lemma hasHashId_hash_digit (d : Char) (hd : Char.isDigit d = true) (l : List Char) :
    hasHashId ('#' :: d :: l) = true := by
  show (if '#' = '#' ∧ (d :: l).takeWhile Char.isDigit ≠ [] then true
        else hasHashId (d :: l)) = true
  rw [if_pos ⟨rfl, by rw [List.takeWhile_cons, if_pos hd]; simp⟩]

lemma hasHashId_cons_elim (c : Char) (rest : List Char)
    (hh : hasHashId (c :: rest) = true)
    (hx : ¬(c = '#' ∧ rest.takeWhile Char.isDigit ≠ [])) :
    hasHashId rest = true := by
  have e : hasHashId (c :: rest) =
      if c = '#' ∧ rest.takeWhile Char.isDigit ≠ [] then true
      else hasHashId rest := rfl
  rwa [e, if_neg hx] at hh

lemma hashIdScan_length (repoIssuesUrl : List Char) :
    ∀ (n : Nat) (s : List Char), s.length ≤ n →
      s.length ≤ (hashIdScanSpec repoIssuesUrl s).length ∧
        (hasHashId s = true →
          s.length < (hashIdScanSpec repoIssuesUrl s).length) := by
  intro n
  induction n with
  | zero =>
    intro s hn
    have hs : s = [] := List.length_eq_zero.mp (Nat.le_zero.mp hn)
    subst hs
    simp [hashIdScanSpec_nil, hasHashId]
  | succ n ih =>
    intro s hn
    cases s with
    | nil => simp [hashIdScanSpec_nil, hasHashId]
    | cons c rest =>
      rw [hashIdScanSpec_cons]
      by_cases hc : c = '#'
      · subst hc
        by_cases hd : rest.takeWhile Char.isDigit = []
        · rw [if_pos rfl, if_pos hd]
          have h1 := ih rest (by simp at hn; omega)
          constructor
          · simp only [List.length_cons]
            omega
          · intro hh
            have hh2 : hasHashId rest = true :=
              hasHashId_cons_elim '#' rest hh (by simp [hd])
            have := h1.2 hh2
            simp only [List.length_cons]
            omega
        · rw [if_pos rfl, if_neg hd]
          have hlen := length_drop_le rest (rest.takeWhile Char.isDigit).length
          have h1 := ih (rest.drop (rest.takeWhile Char.isDigit).length)
            (by simp at hn; omega)
          have hds1 : 1 ≤ (rest.takeWhile Char.isDigit).length := by
            cases h : rest.takeWhile Char.isDigit with
            | nil => exact absurd h hd
            | cons a b => simp [h]
          have hrest : rest.length =
              (rest.takeWhile Char.isDigit).length +
                (rest.drop (rest.takeWhile Char.isDigit).length).length := by
            simp only [List.length_drop]
            have := takeWhile_length_le (p := Char.isDigit) rest
            omega
          constructor
          · simp only [List.length_append, List.length_cons,
              hashLink_length]
            omega
          · intro _
            simp only [List.length_append, List.length_cons,
              hashLink_length]
            omega
      · rw [if_neg hc]
        have h1 := ih rest (by simp at hn; omega)
        constructor
        · simp only [List.length_cons]
          omega
        · intro hh
          have hh2 : hasHashId rest = true :=
            hasHashId_cons_elim c rest hh (by intro hx; exact hc hx.1)
          have := h1.2 hh2
          simp only [List.length_cons]
          omega

lemma hasHashId_hashLink_append (repoIssuesUrl ds tail : List Char)
    (hne : ds ≠ []) (hds : ∀ c ∈ ds, Char.isDigit c = true) :
    hasHashId (hashLink repoIssuesUrl ds ++ tail) = true := by
  cases ds with
  | nil => exact absurd rfl hne
  | cons d ds2 =>
    have hd : Char.isDigit d = true := hds d (by simp)
    show hasHashId ('[' :: '#' ::
      (((d :: ds2) ++ ']' :: '(' ::
        (repoIssuesUrl ++ (d :: ds2) ++ [')'])) ++ tail)) = true
    rw [List.cons_append]
    exact hasHashId_cons_of '[' _ (hasHashId_hash_digit d hd _)

lemma hasHashId_scan (repoIssuesUrl : List Char) :
    ∀ (n : Nat) (s : List Char), s.length ≤ n → hasHashId s = true →
      hasHashId (hashIdScanSpec repoIssuesUrl s) = true := by
  intro n
  induction n with
  | zero =>
    intro s hn hh
    have hs : s = [] := List.length_eq_zero.mp (Nat.le_zero.mp hn)
    subst hs
    simp [hasHashId] at hh
  | succ n ih =>
    intro s hn hh
    cases s with
    | nil => simp [hasHashId] at hh
    | cons c rest =>
      rw [hashIdScanSpec_cons]
      by_cases hc : c = '#'
      · subst hc
        by_cases hd : rest.takeWhile Char.isDigit = []
        · rw [if_pos rfl, if_pos hd]
          have hh2 : hasHashId rest = true :=
            hasHashId_cons_elim '#' rest hh (by simp [hd])
          exact hasHashId_cons_of '#' _ (ih rest (by simp at hn; omega) hh2)
        · rw [if_pos rfl, if_neg hd]
          exact hasHashId_hashLink_append repoIssuesUrl _ _ hd
            (fun c hc => mem_takeWhile_sat rest c hc)
      · rw [if_neg hc]
        have hh2 : hasHashId rest = true :=
          hasHashId_cons_elim c rest hh (by intro hx; exact hc hx.1)
        exact hasHashId_cons_of c _ (ih rest (by simp at hn; omega) hh2)

lemma strFind_append (c : Char) (l₁ l₂ : List Char) (h : c ∉ l₁) :
    strFind (l₁ ++ c :: l₂) c = l₁.length := by
  unfold strFind
  rw [if_pos (by simp), ne_takeWhile_append c l₁ l₂ h]

lemma foldl_append_eq_acc {α : Type} (f : α → List Char) :
    ∀ (l : List α) (acc : List Char), (∀ s ∈ l, f s = []) →
      l.foldl (fun a s => a ++ f s) acc = acc := by
  intro l
  induction l with
  | nil => intro acc _; rfl
  | cons x t ih =>
    intro acc h
    rw [List.foldl_cons, h x (by simp), List.append_nil]
    exact ih acc (fun s hs => h s (by simp [hs]))

/-- C1: the claim states that a section assembled from records none of
which produces a formatted entry (all NoMatch, or, for the pull-request
source, a matching record without a hash-digit token) is the empty string
with no title line.  The code violates it: the flag
commitTypeContainsReleaseNotes is set on every line read, so on the inputs
below both assemblers return the bare title section, not the empty
string. -/
theorem ct1_sectionTitleLeaks :
    checkCommitTypeMatch "hello".toList ⟨"fix".toList, "Fixes".toList⟩ =
      CommitTypeMatchResults.NoMatch ∧
    getCommitsNotesFromCommitMessages ⟨"fix".toList, "Fixes".toList⟩
      "- ".toList ["hello".toList] = "\nFixes\n".toList ∧
    (checkCommitTypeMatch "fix: x".toList ⟨"fix".toList, "Fixes".toList⟩ ≠
        CommitTypeMatchResults.NoMatch ∧
      firstHashNumber "fix: x".toList = none ∧
      getCommitsNotesFromPullRequests ⟨"fix".toList, "Fixes".toList⟩
        ReleaseNoteModes.Short (fun _ => ⟨none, none⟩) "- ".toList "### ".toList
        "i/".toList "c/".toList ["fix: x".toList] = "\nFixes\n".toList) ∧
    "\nFixes\n".toList ≠ ([] : List Char) := by
  refine ⟨by decide, by decide, ⟨by decide, by decide, by decide⟩, by decide⟩

/-- C2: when assembling every configured commit type yields an empty
section, the document build returns the empty-result fatal error instead of
silently producing an empty document. -/
theorem ct2_emptySectionsRaiseEmptyResult
    (releaseNoteSource : ReleaseNoteSources) (commitTypes : List CommitTypeSpec)
    (releaseNoteMode : ReleaseNoteModes)
    (fetchPullRequestInfo : List Char → PullRequestInfo)
    (markdownReleaseNotePrefixText markdownFullModeReleaseNotePrefixText : List Char)
    (repoIssuesUrl repoCommitsUrl : List Char)
    (linesFor : CommitTypeSpec → List (List Char))
    (h : ∀ spec ∈ commitTypes,
      sectionNotes releaseNoteSource releaseNoteMode fetchPullRequestInfo
        markdownReleaseNotePrefixText markdownFullModeReleaseNotePrefixText
        repoIssuesUrl repoCommitsUrl spec (linesFor spec) = []) :
    generateReleaseNotes releaseNoteSource commitTypes releaseNoteMode
      fetchPullRequestInfo markdownReleaseNotePrefixText
      markdownFullModeReleaseNotePrefixText repoIssuesUrl repoCommitsUrl
      linesFor = Except.error NotesError.emptyReleaseNotes := by
  unfold generateReleaseNotes
  rw [show commitTypes.foldl
      (fun acc spec =>
        acc ++ sectionNotes releaseNoteSource releaseNoteMode fetchPullRequestInfo
          markdownReleaseNotePrefixText markdownFullModeReleaseNotePrefixText
          repoIssuesUrl repoCommitsUrl spec (linesFor spec)) [] = [] from
    foldl_append_eq_acc _ commitTypes [] h]
  rfl

/-- Witness for C2 at a one-type registry whose commit source produces no
lines, so its section is empty. -/
theorem ct2_witness :
    generateReleaseNotes ReleaseNoteSources.CommitMessages
      [⟨"fix".toList, "Fixes".toList⟩] ReleaseNoteModes.Short
      (fun _ => ⟨none, none⟩) "- ".toList "### ".toList "i/".toList "c/".toList
      (fun _ => []) = Except.error NotesError.emptyReleaseNotes := by
  apply ct2_emptySectionsRaiseEmptyResult
  intro spec _
  rfl

/-- C3: whenever the prefix of the title before the first colon equals the
conventional name of the commit type, classification yields
MatchWithoutSubCategory. -/
theorem ct3_prefixBeforeColonMatch (title : List Char) (spec : CommitTypeSpec)
    (h : title.takeWhile (fun c => c ≠ ':') = spec.conventionalName) :
    checkCommitTypeMatch title spec =
      CommitTypeMatchResults.MatchWithoutSubCategory := by
  unfold checkCommitTypeMatch
  rw [if_pos h]

/-- Witness for C3 at the title consisting of the conventional name
followed by colon and space (trailing empty description). -/
theorem ct3_witness :
    checkCommitTypeMatch "fix: ".toList ⟨"fix".toList, "Bug Fixes".toList⟩ =
      CommitTypeMatchResults.MatchWithoutSubCategory :=
  ct3_prefixBeforeColonMatch "fix: ".toList ⟨"fix".toList, "Bug Fixes".toList⟩
    (by decide)

/-- C6: the hash-id rewrite with its manual cumulative-offset bookkeeping
is position-stable: it equals the single left-to-right scan that replaces
every hash-digit occurrence with the markdown link and leaves all
non-matching text unchanged. -/
theorem ct6_hashRewritePositionStable (repoIssuesUrl s : List Char) :
    replaceHashIdsWithLinks repoIssuesUrl s = hashIdScanSpec repoIssuesUrl s :=
  replaceHash_eq_scan repoIssuesUrl s

/-- C7: the commit-SHA rewrite is position-stable (equals the single
left-to-right scan replacing every bounded 6-to-40 hexadecimal run,
boundaries included, by the spaced markdown link), and the rewrite of the
concrete input "Commit 219c2149 fixed it" yields exactly the expected
text. -/
theorem ct7_shaRewritePositionStable :
    (∀ (repoCommitsUrl s : List Char),
      replaceCommitShasWithLinks repoCommitsUrl s =
        shaScanSpec repoCommitsUrl s) ∧
    replaceCommitShasWithLinks "https://x/commit/".toList
        "Commit 219c2149 fixed it".toList =
      "Commit [219c21](https://x/commit/219c2149) fixed it".toList := by
  constructor
  · intro repoCommitsUrl s
    exact replaceSha_eq_scan repoCommitsUrl s
  · decide

/-- Counterexample to C4 as stated: for the title "a)(b)c" and a commit
type whose conventional name is "a)", the prefix before the first colon
differs from the name, the prefix before the first opening parenthesis
equals the name, and a closing parenthesis follows that opening
parenthesis, yet the extracted subcategory is "b)c" (the size_t
subtraction find of the first closing parenthesis minus startPos wraps
around, so substr takes everything to the end), not the text "b" strictly
between the first opening parenthesis and the first closing parenthesis
following it. -/
theorem ct4_counterexample :
    ("a)(b)c".toList.takeWhile (fun c => c ≠ ':') ≠ "a)".toList) ∧
    "a)(b)c".toList.takeWhile (fun c => c ≠ '(') = "a)".toList ∧
    ')' ∈ "a)(b)c".toList.drop
      (("a)(b)c".toList.takeWhile (fun c => c ≠ '(')).length + 1) ∧
    checkCommitTypeMatch "a)(b)c".toList ⟨"a)".toList, "T".toList⟩ =
      CommitTypeMatchResults.MatchWithSubCategory ∧
    ("a)(b)c".toList.drop
        (("a)(b)c".toList.takeWhile (fun c => c ≠ '(')).length + 1)).takeWhile
      (fun c => c ≠ ')') = "b".toList ∧
    extractedSubCategory "a)(b)c".toList = "b)c".toList ∧
    "b)c".toList ≠ "b".toList := by
  refine ⟨by decide, by decide, by decide, by decide, by decide, ?_, by decide⟩
  have h1 : strFind "a)(b)c".toList '(' = 2 := by decide
  have h2 : strFind "a)(b)c".toList ')' = 1 := by decide
  have hmain : extractedSubCategory "a)(b)c".toList =
      cppSubstr "a)(b)c".toList 3 (sizeTSub 1 3) := by
    show cppSubstr "a)(b)c".toList
        ((strFind "a)(b)c".toList '(' + 1) % 2 ^ 64)
        (sizeTSub (strFind "a)(b)c".toList ')')
          ((strFind "a)(b)c".toList '(' + 1) % 2 ^ 64)) =
      cppSubstr "a)(b)c".toList 3 (sizeTSub 1 3)
    rw [h1, h2]
    norm_num
  rw [hmain]
  have h3 : sizeTSub 1 3 = 2 ^ 64 - 2 := by norm_num [sizeTSub]
  rw [h3]
  show ("a)(b)c".toList.drop 3).take (2 ^ 64 - 2) = "b)c".toList
  rw [show "a)(b)c".toList.drop 3 = "b)c".toList from by decide]
  exact take_of_le_len _ _ (by decide)

/-- C4 amended: under the additional hypothesis that no closing
parenthesis occurs before the first opening parenthesis (made structural:
the title decomposes as name, opening parenthesis, subcategory free of
closing parentheses, closing parenthesis, tail, with neither parenthesis
in the name), classification yields MatchWithSubCategory and the extracted
subcategory is exactly the text strictly between the first opening
parenthesis and the first closing parenthesis following it.  The length
bound reflects size_t positions of a real std::string. -/
theorem ct4_subcategoryExtraction (title name sub tail : List Char)
    (spec : CommitTypeSpec)
    (hname : spec.conventionalName = name)
    (hdecomp : title = name ++ '(' :: (sub ++ ')' :: tail))
    (hparenName : '(' ∉ name)
    (hcolon : title.takeWhile (fun c => c ≠ ':') ≠ name)
    (hrName : ')' ∉ name)
    (hrSub : ')' ∉ sub)
    (hsmall : name.length + 1 < 2 ^ 64) :
    checkCommitTypeMatch title spec = CommitTypeMatchResults.MatchWithSubCategory ∧
    extractedSubCategory title =
      (title.drop ((title.takeWhile (fun c => c ≠ '(')).length + 1)).takeWhile
        (fun c => c ≠ ')') := by
  subst hname
  subst hdecomp
  have htwp : (spec.conventionalName ++ '(' :: (sub ++ ')' :: tail)).takeWhile
      (fun c => c ≠ '(') = spec.conventionalName :=
    ne_takeWhile_append '(' spec.conventionalName _ hparenName
  have hdrop : (spec.conventionalName ++ '(' :: (sub ++ ')' :: tail)).drop
      (spec.conventionalName.length + 1) = sub ++ ')' :: tail := by
    have := drop_len_add_append spec.conventionalName
      ('(' :: (sub ++ ')' :: tail)) 1
    simpa using this
  constructor
  · unfold checkCommitTypeMatch
    rw [if_neg hcolon, if_pos htwp]
  · have hfind1 : strFind (spec.conventionalName ++ '(' :: (sub ++ ')' :: tail)) '(' =
        spec.conventionalName.length :=
      strFind_append '(' spec.conventionalName _ hparenName
    have hfind2 : strFind (spec.conventionalName ++ '(' :: (sub ++ ')' :: tail)) ')' =
        spec.conventionalName.length + 1 + sub.length := by
      have e : spec.conventionalName ++ '(' :: (sub ++ ')' :: tail) =
          (spec.conventionalName ++ '(' :: sub) ++ ')' :: tail := by simp
      rw [e, strFind_append ')' (spec.conventionalName ++ '(' :: sub) tail (by
        intro hmem
        rcases List.mem_append.mp hmem with h | h
        · exact hrName h
        · rcases List.mem_cons.mp h with h | h
          · exact absurd h (by decide)
          · exact hrSub h)]
      simp only [List.length_append, List.length_cons]
      omega
    have hmod : (strFind (spec.conventionalName ++ '(' :: (sub ++ ')' :: tail)) '(' + 1)
        % 2 ^ 64 = spec.conventionalName.length + 1 := by
      rw [hfind1]
      exact Nat.mod_eq_of_lt hsmall
    have hsub2 : sizeTSub
        (strFind (spec.conventionalName ++ '(' :: (sub ++ ')' :: tail)) ')')
        ((strFind (spec.conventionalName ++ '(' :: (sub ++ ')' :: tail)) '(' + 1)
          % 2 ^ 64) = sub.length := by
      rw [hfind2, hmod]
      unfold sizeTSub
      rw [if_pos (by omega)]
      omega
    have hextr : extractedSubCategory
        (spec.conventionalName ++ '(' :: (sub ++ ')' :: tail)) = sub := by
      show cppSubstr (spec.conventionalName ++ '(' :: (sub ++ ')' :: tail))
          ((strFind (spec.conventionalName ++ '(' :: (sub ++ ')' :: tail)) '(' + 1)
            % 2 ^ 64)
          (sizeTSub
            (strFind (spec.conventionalName ++ '(' :: (sub ++ ')' :: tail)) ')')
            ((strFind (spec.conventionalName ++ '(' :: (sub ++ ')' :: tail)) '(' + 1)
              % 2 ^ 64)) = sub
      rw [hsub2, hmod]
      unfold cppSubstr
      rw [hdrop, take_len_append]
    rw [hextr, htwp, hdrop, ne_takeWhile_append ')' sub tail hrSub]

/-- Witness for C4: the amended extraction at the title "fix(auth): y"
with conventional name "fix". -/
theorem ct4_witness :
    checkCommitTypeMatch "fix(auth): y".toList ⟨"fix".toList, "T".toList⟩ =
      CommitTypeMatchResults.MatchWithSubCategory ∧
    extractedSubCategory "fix(auth): y".toList =
      ("fix(auth): y".toList.drop
        (("fix(auth): y".toList.takeWhile (fun c => c ≠ '(')).length + 1)).takeWhile
        (fun c => c ≠ ')') :=
  ct4_subcategoryExtraction "fix(auth): y".toList "fix".toList "auth".toList
    ": y".toList ⟨"fix".toList, "T".toList⟩ rfl (by decide) (by decide)
    (by decide) (by decide) (by decide) (by decide)

/-- C5 (modelled from the spec, see
convertConventionalCommitTitleToReleaseNoteTitle): the entry-title
formatter removes everything up to and including the first colon plus one
following space, capitalizes the first remaining character, prepends the
capitalized subcategory block when the classification carries one, prepends
the configured prefix, and terminates with a newline. -/
theorem ct5_formatEntry :
    (∀ (pre rest markdownPrefixText : List Char), ':' ∉ pre →
      convertConventionalCommitTitleToReleaseNoteTitle (pre ++ ':' :: ' ' :: rest)
        CommitTypeMatchResults.MatchWithoutSubCategory markdownPrefixText =
        markdownPrefixText ++ capitalizeFirst rest ++ ['\n']) ∧
    (∀ (name sub rest markdownPrefixText : List Char),
      ':' ∉ name → ':' ∉ sub → '(' ∉ name → ')' ∉ sub →
      convertConventionalCommitTitleToReleaseNoteTitle
          (name ++ '(' :: (sub ++ ')' :: ':' :: ' ' :: rest))
          CommitTypeMatchResults.MatchWithSubCategory markdownPrefixText =
        markdownPrefixText ++ '(' ::
          (capitalizeFirst sub ++ " Related) ".toList) ++
          capitalizeFirst rest ++ ['\n']) := by
  constructor
  · intro pre rest markdownPrefixText hpre
    have e1 : (pre ++ ':' :: ' ' :: rest).takeWhile (fun c => c ≠ ':') = pre :=
      ne_takeWhile_append ':' pre (' ' :: rest) hpre
    have e2 : (pre ++ ':' :: ' ' :: rest).drop (pre.length + 2) = rest := by
      have := drop_len_add_append pre (':' :: ' ' :: rest) 2
      simpa using this
    simp only [convertConventionalCommitTitleToReleaseNoteTitle, e1]
    rw [if_neg (by decide), e2]
    simp
  · intro name sub rest markdownPrefixText hcn hcs hpn hrs
    have eassoc : name ++ '(' :: (sub ++ ')' :: ':' :: ' ' :: rest) =
        (name ++ '(' :: (sub ++ [')'])) ++ ':' :: ' ' :: rest := by simp
    have e4 : (name ++ '(' :: (sub ++ ')' :: ':' :: ' ' :: rest)).takeWhile
        (fun c => c ≠ ':') = name ++ '(' :: (sub ++ [')']) := by
      rw [eassoc]
      refine ne_takeWhile_append ':' _ (' ' :: rest) ?_
      intro hmem
      rcases List.mem_append.mp hmem with h | h
      · exact hcn h
      · rcases List.mem_cons.mp h with h | h
        · exact absurd h (by decide)
        · rcases List.mem_append.mp h with h | h
          · exact hcs h
          · rcases List.mem_cons.mp h with h | h
            · exact absurd h (by decide)
            · simp at h
    have e5 : (name ++ '(' :: (sub ++ ')' :: ':' :: ' ' :: rest)).drop
        ((name ++ '(' :: (sub ++ [')'])).length + 2) = rest := by
      rw [eassoc, drop_len_add_append]
      rfl
    have e1 : (name ++ '(' :: (sub ++ ')' :: ':' :: ' ' :: rest)).takeWhile
        (fun c => c ≠ '(') = name :=
      ne_takeWhile_append '(' name _ hpn
    have e2 : (name ++ '(' :: (sub ++ ')' :: ':' :: ' ' :: rest)).drop
        (name.length + 1) = sub ++ ')' :: ':' :: ' ' :: rest := by
      have := drop_len_add_append name ('(' :: (sub ++ ')' :: ':' :: ' ' :: rest)) 1
      simpa using this
    have e3 : (sub ++ ')' :: ':' :: ' ' :: rest).takeWhile (fun c => c ≠ ')') = sub :=
      ne_takeWhile_append ')' sub (':' :: ' ' :: rest) hrs
    simp only [convertConventionalCommitTitleToReleaseNoteTitle, e4, e1, e2, e3]
    rw [if_pos trivial, e5]

/-- Witness for C5: the example of the claim, formatting
"fix(auth): fixed bug X" with a subcategory classification and the full
mode prefix. -/
theorem ct5_witness :
    convertConventionalCommitTitleToReleaseNoteTitle
      "fix(auth): fixed bug X".toList CommitTypeMatchResults.MatchWithSubCategory
      "### ".toList = "### (Auth Related) Fixed bug X\n".toList := by
  have h := ct5_formatEntry.2 "fix".toList "auth".toList "fixed bug X".toList
    "### ".toList (by decide) (by decide) (by decide) (by decide)
  have e1 : "fix(auth): fixed bug X".toList =
      "fix".toList ++ '(' :: ("auth".toList ++ ')' :: ':' :: ' ' ::
        "fixed bug X".toList) := by decide
  rw [e1, h]
  decide

/-- C8: the hash-id rewrite is not idempotent on its own output: whenever
the input contains a hash-digit token, the rewritten text again contains
one (inside the produced link text), and a second application changes the
string again rather than recognizing the already-linked id. -/
theorem ct8_hashRewriteNotIdempotent (repoIssuesUrl s : List Char)
    (h : hasHashId s = true) :
    hasHashId (replaceHashIdsWithLinks repoIssuesUrl s) = true ∧
    replaceHashIdsWithLinks repoIssuesUrl
        (replaceHashIdsWithLinks repoIssuesUrl s) ≠
      replaceHashIdsWithLinks repoIssuesUrl s := by
  have h1 : hasHashId (replaceHashIdsWithLinks repoIssuesUrl s) = true := by
    rw [replaceHash_eq_scan]
    exact hasHashId_scan repoIssuesUrl s.length s (Nat.le_refl _) h
  refine ⟨h1, ?_⟩
  intro heq
  have hlt := (hashIdScan_length repoIssuesUrl
    (replaceHashIdsWithLinks repoIssuesUrl s).length
    (replaceHashIdsWithLinks repoIssuesUrl s) (Nat.le_refl _)).2 h1
  rw [← replaceHash_eq_scan] at hlt
  rw [heq] at hlt
  exact Nat.lt_irrefl _ hlt

/-- Witness for C8 at the input consisting of one hash id: the first
application produces the link, whose text still contains the token, and
the second application rewrites it again. -/
theorem ct8_witness :
    hasHashId (replaceHashIdsWithLinks "u/".toList "#1".toList) = true ∧
    replaceHashIdsWithLinks "u/".toList
        (replaceHashIdsWithLinks "u/".toList "#1".toList) ≠
      replaceHashIdsWithLinks "u/".toList "#1".toList :=
  ct8_hashRewriteNotIdempotent "u/".toList "#1".toList (by decide)

/-- Counterexample to C9 as stated: the HTTP status 418 is not 200, yet
getPullRequestInfo returns the fetched body as a success instead of
failing with a typed error (the error dispatch falls through for every
unhandled status). -/
theorem ct9_counterexample :
    getPullRequestInfo (CurlOutcome.response 418 "r".toList) =
      Except.ok "r".toList ∧ (418 : Nat) ≠ 200 :=
  ⟨rfl, by decide⟩

/-- C9 amended: getPullRequestInfo returns the fetched JSON for status
200; it fails rate-limited for 429 and 403, unauthorized for 401,
bad-request for 400, not-found for 404, transient-server-error for 503,
500, 422 and 406, and transport-error when the request cannot be
performed; all in a single dispatch with no retry.  However, for every
status outside this handled set the error dispatch falls through and the
fetched body is returned as if the call had succeeded, so the returned
JSON does not imply status 200. -/
theorem ct9_statusDispatch (jsonResponse : List Char) :
    getPullRequestInfo (CurlOutcome.response 200 jsonResponse) =
      Except.ok jsonResponse ∧
    (∀ c, c = 429 ∨ c = 403 →
      getPullRequestInfo (CurlOutcome.response c jsonResponse) =
        Except.error GithubApiError.rateLimitExceeded) ∧
    getPullRequestInfo (CurlOutcome.response 401 jsonResponse) =
      Except.error GithubApiError.unauthorizedAccess ∧
    getPullRequestInfo (CurlOutcome.response 400 jsonResponse) =
      Except.error GithubApiError.badRequest ∧
    getPullRequestInfo (CurlOutcome.response 404 jsonResponse) =
      Except.error GithubApiError.notFound ∧
    (∀ c, c = 503 ∨ c = 500 ∨ c = 422 ∨ c = 406 →
      getPullRequestInfo (CurlOutcome.response c jsonResponse) =
        Except.error GithubApiError.requestNotProcessed) ∧
    getPullRequestInfo CurlOutcome.performFailure =
      Except.error GithubApiError.unableToMakeRequest ∧
    (∀ c, c ∉ ([200, 429, 403, 401, 400, 404, 503, 500, 422, 406] : List Nat) →
      getPullRequestInfo (CurlOutcome.response c jsonResponse) =
        Except.ok jsonResponse) := by
  refine ⟨rfl, ?_, rfl, rfl, rfl, ?_, rfl, ?_⟩
  · intro c hc
    rcases hc with rfl | rfl <;> rfl
  · intro c hc
    rcases hc with rfl | rfl | rfl | rfl <;> rfl
  · intro c hc
    simp only [List.mem_cons, List.not_mem_nil, or_false, not_or] at hc
    obtain ⟨h200, h429, h403, h401, h400, h404, h503, h500, h422, h406⟩ := hc
    simp [getPullRequestInfo, handleGithubApiErrorCodes, h200, h429, h403,
      h401, h400, h404, h503, h500, h422, h406]

/-- Witness for C9: the dispatch applied at a fall-through status and at a
rate-limit status. -/
theorem ct9_witness :
    getPullRequestInfo (CurlOutcome.response 301 "moved".toList) =
      Except.ok "moved".toList ∧
    getPullRequestInfo (CurlOutcome.response 403 "limit".toList) =
      Except.error GithubApiError.rateLimitExceeded := by
  constructor
  · exact (ct9_statusDispatch "moved".toList).2.2.2.2.2.2.2 301 (by decide)
  · exact (ct9_statusDispatch "limit".toList).2.1 403 (Or.inr rfl)

/-- C10: a 6-to-40 character lowercase-hexadecimal run at the very
beginning or at the very end of the string is left unchanged by
replaceCommitShasWithLinks (the pattern must consume one boundary
character on each side), and a run written between parentheses is
rewritten with its two boundary characters consumed: the result is the
shaLink replacement, which carries a space where each parenthesis was. -/
theorem ct10_boundaryBehavior :
    (∀ (repoCommitsUrl r rest : List Char),
      (∀ c ∈ r, isCommitShaChar c = true) → 6 ≤ r.length → r.length ≤ 40 →
      replaceCommitShasWithLinks repoCommitsUrl (r ++ rest) =
        r ++ replaceCommitShasWithLinks repoCommitsUrl rest) ∧
    (∀ (repoCommitsUrl pre r : List Char),
      (∀ c ∈ r, isCommitShaChar c = true) → 6 ≤ r.length → r.length ≤ 40 →
      replaceCommitShasWithLinks repoCommitsUrl (pre ++ r) =
        replaceCommitShasWithLinks repoCommitsUrl pre ++ r) ∧
    (∀ (repoCommitsUrl r : List Char),
      (∀ c ∈ r, isCommitShaChar c = true) → 6 ≤ r.length → r.length ≤ 40 →
      replaceCommitShasWithLinks repoCommitsUrl ('(' :: (r ++ [')'])) =
        shaLink repoCommitsUrl r) := by
  refine ⟨?_, ?_, ?_⟩
  · intro repoCommitsUrl r rest hr _ _
    rw [replaceSha_eq_scan, replaceSha_eq_scan,
      shaScan_hex_start repoCommitsUrl r rest hr]
  · intro repoCommitsUrl pre r hr _ _
    rw [replaceSha_eq_scan, replaceSha_eq_scan,
      shaScan_hex_end repoCommitsUrl r hr pre.length pre (Nat.le_refl _)]
  · intro repoCommitsUrl r hr h6 h40
    rw [replaceSha_eq_scan, shaScan_parens repoCommitsUrl r hr h6 h40]

/-- Witness for C10 at the run 219c2149: untouched at the start and at the
end of a string, and stripped of its parentheses when written as
(219c2149). -/
theorem ct10_witness :
    replaceCommitShasWithLinks "u/".toList
        ("219c2149".toList ++ " ok".toList) =
      "219c2149".toList ++ replaceCommitShasWithLinks "u/".toList " ok".toList ∧
    replaceCommitShasWithLinks "u/".toList
        ("see ".toList ++ "219c2149".toList) =
      replaceCommitShasWithLinks "u/".toList "see ".toList ++ "219c2149".toList ∧
    replaceCommitShasWithLinks "u/".toList
        ('(' :: ("219c2149".toList ++ [')'])) =
      shaLink "u/".toList "219c2149".toList :=
  ⟨ct10_boundaryBehavior.1 "u/".toList "219c2149".toList " ok".toList
      (by decide) (by decide) (by decide),
    ct10_boundaryBehavior.2.1 "u/".toList "see ".toList "219c2149".toList
      (by decide) (by decide) (by decide),
    ct10_boundaryBehavior.2.2 "u/".toList "219c2149".toList
      (by decide) (by decide) (by decide)⟩
